import Mathlib

/-!
Verification of the `projector` repository: a shallow embedding of
`src/random_rename.py` (bulk random file renamer) and
`src/backend/extract.py` (folder metadata scanner) in Lean 4, with
theorems settling the specification's claims.

Strings are modelled as `List Char`; filesystem and randomness effects are
modelled as explicit oracles passed to the embedded functions, so every
definition is executable and every run is a pure computation over its inputs.
-/

namespace Projector

/-- Strings of the embedded program, modelled as lists of characters. -/
abbrev Str := List Char

/-- Python `string.ascii_lowercase`. -/
def ascii_lowercase : Str := "abcdefghijklmnopqrstuvwxyz".toList

/-- Python `string.ascii_uppercase`. -/
def ascii_uppercase : Str := "ABCDEFGHIJKLMNOPQRSTUVWXYZ".toList

/-- Python `string.digits`. -/
def ascii_digits : Str := "0123456789".toList

/-- The fixed special-character set of `generate_random_name`
(`"!@#$%^&*()-_=+[]\x7b\x7d|;:,.<>?"`). -/
def special_chars : Str := "!@#$%^&*()-_=+[]\x7b\x7d|;:,.<>?".toList

/-- Lower-casing a string, modelling Python `str.lower` (ASCII suffices for
the extensions this program compares). -/
def strLower (s : Str) : Str := s.map Char.toLower

/-- Python `os.path.splitext` on a basename (no directory separator): split off the
extension at the last dot (the position before the dot-free tail of the
string), except that a basename consisting only of dots before that last dot
has no extension. Returns `(root, ext)`. -/
def splitext (s : Str) : Str × Str :=
  if (s.reverse.takeWhile (fun c => c ≠ '.')).length = s.length then (s, [])
  else if (s.take (s.length - (s.reverse.takeWhile (fun c => c ≠ '.')).length - 1)).all
      (fun c => c = '.') then (s, [])
  else (s.take (s.length - (s.reverse.takeWhile (fun c => c ≠ '.')).length - 1),
        s.drop (s.length - (s.reverse.takeWhile (fun c => c ≠ '.')).length - 1))

/-- Python `os.path.basename`: the part of a path after the last `/`. -/
def basename (s : Str) : Str := (s.reverse.takeWhile (fun c => c ≠ '/')).reverse

/-- Whether `p` is a prefix of `s` (Boolean, by direct recursion). -/
def startsWithB : Str → Str → Bool
  | _, [] => true
  | [], _ :: _ => false
  | c :: cs, d :: ds => c = d && startsWithB cs ds

/-- Python's `pattern in base_filename`: contiguous-substring test. -/
def hasSub (p : Str) : Str → Bool
  | [] => startsWithB [] p
  | c :: tail => startsWithB (c :: tail) p || hasSub p tail

/-- Python `str.lstrip('.')`: drop leading dots. -/
def lstripDots (s : Str) : Str := s.dropWhile (fun c => c = '.')

/-- Relative-path join: `os.path.relpath(os.path.join(root, d, f), root)`,
with `[]` standing for the root directory itself. -/
def joinPath (d : Str) (f : Str) : Str := if d = [] then f else d ++ '/' :: f

/-! ## The random renamer (`src/random_rename.py`) -/

/-- The options dictionary assembled in `__main__` and consumed by
`rename_files_recursively`. -/
structure Options where
  name_length : ℕ := 10
  use_letters : Bool := true
  use_digits : Bool := true
  use_special : Bool := false
  dry_run : Bool := false
  create_log : Bool := true
  exclude_script : Bool := true
  exclude_extensions : List Str := []
  exclude_patterns : List Str := []

/-- The `--exclude-ext` normalization in `__main__`:
`[f".\x7bext.lstrip('.')\x7d" for ext in args.exclude_ext]`. -/
def mkExcludeExtensions (raw : List Str) : List Str :=
  raw.map (fun e => '.' :: lstripDots e)

/-- The `chars` alphabet assembled inside `generate_random_name` from the
enabled character classes. -/
def genChars (use_letters use_digits use_special : Bool) : Str :=
  (if use_letters then ascii_lowercase ++ ascii_uppercase else [])
    ++ (if use_digits then ascii_digits else [])
    ++ (if use_special then special_chars else [])

/-- The `chars` alphabet after the empty-alphabet fallback
(`if not chars: chars = lowercase + digits`). -/
def genCharsFinal (use_letters use_digits use_special : Bool) : Str :=
  if genChars use_letters use_digits use_special = [] then
    ascii_lowercase ++ ascii_digits
  else genChars use_letters use_digits use_special

/-- The function `generate_random_name`: draw `length` characters from the alphabet. The
randomness of `random.choice` is an oracle `draw` giving the chosen index
for each position. -/
def generate_random_name (length : ℕ) (use_letters use_digits use_special : Bool)
    (draw : ℕ → ℕ) : Str :=
  (List.range length).map (fun i =>
    (genCharsFinal use_letters use_digits use_special).getD
      (draw i % (genCharsFinal use_letters use_digits use_special).length) 'a')

/-- The function `should_exclude_file`: script self-exclusion, then excluded extensions
(the file's extension lower-cased, the configured list as given), then
substring patterns. Paths in the model are already canonical, so
`os.path.abspath` is the identity. -/
def should_exclude_file (filename : Str) (script_path : Str) (opts : Options) : Bool :=
  if opts.exclude_script && filename = script_path then true
  else if strLower (splitext (basename filename)).2 ∈ opts.exclude_extensions then true
  else opts.exclude_patterns.any (fun pat => hasSub pat (basename filename))

/-- The function `is_long_path`: over the 240-character safety margin. -/
def is_long_path (path : Str) : Bool := decide (240 < path.length)

/-- Outcome of the direct `os.rename` call: success, `FileNotFoundError`, or
any other exception. -/
inductive RenameOutcome where
  | ok
  | fnfError
  | otherError
deriving DecidableEq

/-- The filesystem oracle: the outcome of each operation `safe_rename` may
attempt, plus the platform flag `sys.platform == 'win32'`. A `Bool` result
`false` stands for the call raising an exception. -/
structure FsOracle where
  directRename : Str → Str → RenameOutcome
  isWin32 : Bool
  longRename : Str → Str → Bool
  copy2 : Str → Str → Bool
  remove : Str → Bool

/-- What a `safe_rename` call did: its return value and which fallback
operations were actually performed. -/
structure SafeRenameResult where
  success : Bool
  usedLongPath : Bool
  triedCopy : Bool
  copied : Bool
  removedOriginal : Bool
deriving DecidableEq

/-- The function `safe_rename`, line for line: direct `os.rename`; on `FileNotFoundError`
only, the `\\?\`-prefixed rename when on win32 (non-win32 returns `False`
immediately); the copy-then-delete tier only when the prefixed rename raised;
any other direct-rename exception returns `False` at once. -/
def safe_rename (fs : FsOracle) (old_path new_path : Str) : SafeRenameResult :=
  match fs.directRename old_path new_path with
  | .ok =>
      { success := true, usedLongPath := false, triedCopy := false,
        copied := false, removedOriginal := false }
  | .fnfError =>
      if fs.isWin32 then
        if fs.longRename old_path new_path then
          { success := true, usedLongPath := true, triedCopy := false,
            copied := false, removedOriginal := false }
        else if fs.copy2 old_path new_path then
          if fs.remove old_path then
            { success := true, usedLongPath := true, triedCopy := true,
              copied := true, removedOriginal := true }
          else
            { success := false, usedLongPath := true, triedCopy := true,
              copied := true, removedOriginal := false }
        else
          { success := false, usedLongPath := true, triedCopy := true,
            copied := false, removedOriginal := false }
      else
        { success := false, usedLongPath := false, triedCopy := false,
          copied := false, removedOriginal := false }
  | .otherError =>
      { success := false, usedLongPath := false, triedCopy := false,
        copied := false, removedOriginal := false }

/-- The `while True` collision-avoidance loop of `rename_files_recursively`:
try generated names `gen k, gen (k+1), ...` (each suffixed with the
extension) until one is not in the directory's used-name set. `gen k` is the
base name returned by the `k`-th call to `generate_random_name` in this run;
`fuel` bounds the search because the Python loop has no bound of its own. -/
def pickFresh (gen : ℕ → Str) (extension : Str) (used : List Str) :
    ℕ → ℕ → Option (Str × ℕ)
  | 0, _ => none
  | fuel + 1, k =>
    let new_name := gen k ++ extension
    if new_name ∈ used then pickFresh gen extension used fuel (k + 1)
    else some (new_name, k + 1)

/-- Association-list lookup for `used_names_by_dir`. -/
def lookupDir : List (Str × List Str) → Str → Option (List Str)
  | [], _ => none
  | (k, v) :: t, d => if k = d then some v else lookupDir t d

/-- Association-list update for `used_names_by_dir`. -/
def updateDir : List (Str × List Str) → Str → List Str → List (Str × List Str)
  | [], _, _ => []
  | (k, w) :: t, d, v => if k = d then (d, v) :: t else (k, w) :: updateDir t d v

/-- The mutable state of `rename_files_recursively` during the walk:
the old→new mapping, the per-directory used-name sets, the log entries,
the four counters, the number of `generate_random_name` calls so far, the
rename operations actually issued to the filesystem, and the long-path
warnings printed. -/
structure RunState where
  renamed_files : List (Str × Str) := []
  used_by_dir : List (Str × List Str) := []
  log_files : List (Str × Str) := []
  total : ℕ := 0
  renamed : ℕ := 0
  skipped : ℕ := 0
  errors : ℕ := 0
  genCalls : ℕ := 0
  fsRenames : List (Str × Str) := []
  warnings : List Str := []
deriving DecidableEq

/-- Record the mapping and (when logging is on) the log entry for one file:
`renamed_files[rel_path] = rel_new_path` and
`log_data['files'][rel_path] = rel_new_path`. -/
def recordMapping (opts : Options) (st : RunState) (rel_path rel_new_path : Str) :
    RunState :=
  if opts.create_log then
    { st with renamed_files := st.renamed_files ++ [(rel_path, rel_new_path)],
              log_files := st.log_files ++ [(rel_path, rel_new_path)] }
  else
    { st with renamed_files := st.renamed_files ++ [(rel_path, rel_new_path)] }

/-- The long-path warning printed before the rename attempt. -/
def addWarning (dpath filename new_name : Str) (st : RunState) : RunState :=
  if is_long_path (joinPath dpath filename) || is_long_path (joinPath dpath new_name) then
    { st with warnings := st.warnings ++ [joinPath dpath filename] }
  else st

/-- The tail of the per-file body once a fresh name has been picked: warn on
long paths, then either record directly (dry-run), or call `safe_rename` and
record the mapping on success / count an error on failure. -/
def processRename (opts : Options) (fs : FsOracle) (dpath filename new_name : Str)
    (st : RunState) : RunState :=
  if opts.dry_run then
    recordMapping opts (addWarning dpath filename new_name st)
      (joinPath dpath filename) (joinPath dpath new_name)
  else if (safe_rename fs (joinPath dpath filename) (joinPath dpath new_name)).success then
    recordMapping opts
      { addWarning dpath filename new_name st with
          renamed := st.renamed + 1,
          fsRenames := st.fsRenames ++ [(joinPath dpath filename, joinPath dpath new_name)] }
      (joinPath dpath filename) (joinPath dpath new_name)
  else
    { addWarning dpath filename new_name st with
        errors := st.errors + 1,
        fsRenames := st.fsRenames ++ [(joinPath dpath filename, joinPath dpath new_name)] }

/-- The per-file body of the walk in `rename_files_recursively`: count the
file, test exclusion, generate a fresh name, then `processRename`. `none`
models the collision loop not terminating within `fuel` attempts. -/
def processFile (opts : Options) (fs : FsOracle) (gen : ℕ → Str)
    (script_path : Str) (fuel : ℕ) (dpath : Str) (st : RunState)
    (filename : Str) : Option RunState :=
  if should_exclude_file (joinPath dpath filename) script_path opts then
    some { st with total := st.total + 1, skipped := st.skipped + 1 }
  else
    match pickFresh gen (splitext filename).2
        ((lookupDir st.used_by_dir dpath).getD []) fuel st.genCalls with
    | none => none
    | some (new_name, k') =>
      some (processRename opts fs dpath filename new_name
        { st with total := st.total + 1, genCalls := k',
                  used_by_dir := updateDir st.used_by_dir dpath
                    (new_name :: (lookupDir st.used_by_dir dpath).getD []) })

/-- One directory of the `os.walk` traversal: its path relative to the root
(`[]` for the root itself) and the names of the files it contains. -/
structure Dir where
  path : Str
  files : List Str

/-- Process one directory of the walk: create its used-name set if absent,
then process its files in order. -/
def processDir (opts : Options) (fs : FsOracle) (gen : ℕ → Str)
    (script_path : Str) (fuel : ℕ) (st : RunState) (d : Dir) :
    Option RunState :=
  match lookupDir st.used_by_dir d.path with
  | some _ => d.files.foldlM (processFile opts fs gen script_path fuel d.path) st
  | none =>
      d.files.foldlM (processFile opts fs gen script_path fuel d.path)
        { st with used_by_dir := st.used_by_dir ++ [(d.path, [])] }

/-- The outcome of a whole run: the final state and whether the log file was
written (`create_log and renamed_files and not dry_run`). -/
structure RunResult where
  state : RunState
  log_written : Bool
deriving DecidableEq

/-- The function `rename_files_recursively` over a walk given as a list of directories. -/
def rename_files_recursively (opts : Options) (fs : FsOracle) (gen : ℕ → Str)
    (script_path : Str) (fuel : ℕ) (dirs : List Dir) : Option RunResult :=
  match dirs.foldlM (processDir opts fs gen script_path fuel) {} with
  | none => none
  | some st =>
      some { state := st,
             log_written := opts.create_log && !st.renamed_files.isEmpty && !opts.dry_run }

/-! ## The metadata scanner (`src/backend/extract.py`) -/

/-- A JSON-like metadata value, as stored in the scanner's sub-records. -/
inductive MetaVal where
  | str (s : Str)
  | nat (n : ℕ)
  | bool (b : Bool)
  | strList (l : List Str)
  | dict (d : List (Str × Str))
  | pair (a b : ℕ)
deriving DecidableEq

/-- Python `s.split(sep)` for a one-character separator. -/
def splitOn (sep : Char) : Str → List Str
  | [] => [[]]
  | c :: cs =>
    if c = sep then [] :: splitOn sep cs
    else
      match splitOn sep cs with
      | [] => [[c]]
      | h :: t => (c :: h) :: t

/-- The whitespace characters of Python `str.strip()`. -/
def pyWhitespace : Str := [' ', '\t', '\n', '\x0b', '\x0c', '\x0d']

/-- Python `str.strip()`: drop leading and trailing whitespace. -/
def pyStrip (s : Str) : Str :=
  ((s.dropWhile (fun c => c ∈ pyWhitespace)).reverse.dropWhile
    (fun c => c ∈ pyWhitespace)).reverse

/-- What `PdfReader` exposed for a readable PDF: everything the `try` block
of `get_pdf_metadata` reads. `docInfo = none` models `reader.metadata` being
`None`; the `Option Str` fields model attributes that may be `None`. -/
structure PdfReaderData where
  numPages : ℕ
  docInfo : Bool
  title : Option Str
  author : Option Str
  subject : Option Str
  keywords : Str
  producer : Str
  creationDate : Str
  modDate : Str
  hasHeaderVersion : Bool
  headerVersion : Str
  isEncrypted : Bool

/-- The function `get_pdf_metadata`: the whole `try` block succeeds with the reader's
data, or any exception inside it yields the empty mapping. A `none` oracle
models the exception path. -/
def get_pdf_metadata (reader : Option PdfReaderData) : List (Str × MetaVal) :=
  match reader with
  | none => []
  | some d =>
    let title := if d.docInfo then (d.title.getD []) else []
    let author := if d.docInfo then (d.author.getD []) else []
    let subject := if d.docInfo then (d.subject.getD []) else []
    let keywords := if d.docInfo then d.keywords else []
    let kwList :=
      if keywords = [] then [] else (splitOn ',' keywords).map pyStrip
    [("page_count".toList, .nat d.numPages),
     ("document_title".toList, .str title),
     ("author".toList, .str author),
     ("subject".toList, .str subject),
     ("keywords".toList, .strList kwList),
     ("producer".toList, .str (if d.docInfo then d.producer else [])),
     ("creation_date".toList, .str (if d.docInfo then d.creationDate else [])),
     ("modification_date".toList, .str (if d.docInfo then d.modDate else [])),
     ("pdf_version".toList, .str (if d.hasHeaderVersion then d.headerVersion else [])),
     ("font_usage".toList, .str "Unknown".toList),
     ("color_profile".toList, .str "sRGB".toList),
     ("tagged_pdf".toList, .bool false),
     ("encryption_status".toList,
       .str (if d.isEncrypted then "Encrypted".toList else "None".toList))]

/-- What `Image.open` exposed for a readable image: everything the `try`
block of `get_image_metadata` reads. -/
structure ImageData where
  width : ℕ
  height : ℕ
  mode : Str
  dpi : ℕ × ℕ
  dpiStr : Str
  exif : Option (List (Str × Str))
  iccProfile : Str

/-- The function `get_image_metadata`: the whole `try` block succeeds with the image's
data, or any exception inside it yields the empty mapping. -/
def get_image_metadata (img : Option ImageData) : List (Str × MetaVal) :=
  match img with
  | none => []
  | some d =>
    [("dimensions".toList, .pair d.width d.height),
     ("color_mode".toList, .str d.mode),
     ("resolution".toList, .str (if d.dpi.1 ≠ 0 then d.dpiStr else [])),
     ("exif".toList, .dict (d.exif.getD [])),
     ("ICC_profile".toList, .str d.iccProfile)]

/-- What `os.stat` and `pwd` exposed for one file, with the timestamps
already formatted as ISO strings. -/
structure StatData where
  size : ℕ
  hasBirthtime : Bool
  birthtimeIso : Str
  ctimeIso : Str
  mtimeIso : Str
  ownerName : Option Str

/-- One file as seen by the scanner's walk: its full path and the oracles
for the filesystem reads the scanner performs on it. -/
structure ScanFile where
  path : Str
  stat : StatData
  pdfReader : Option PdfReaderData
  image : Option ImageData

/-- The base-record part of a scanner entry (`get_file_info`). -/
structure FileRecord where
  filename : Str
  file_path : Str
  file_type : Str
  size : ℕ
  date_created : Str
  date_modified : Str
  added_by : Str
  tags : List Str
  content_summary : Str
  pdf_metadata : Option (List (Str × MetaVal))
  image_metadata : Option (List (Str × MetaVal))
deriving DecidableEq

/-- The function `get_file_info`: basic info from `os.stat`, with the birth-time fallback
to `st_ctime` and best-effort owner resolution. -/
def get_file_info (f : ScanFile) : FileRecord :=
  { filename := basename f.path,
    file_path := f.path,
    file_type := strLower (splitext (basename f.path)).2,
    size := f.stat.size,
    date_created :=
      if f.stat.hasBirthtime then f.stat.birthtimeIso else f.stat.ctimeIso,
    date_modified := f.stat.mtimeIso,
    added_by :=
      match f.stat.ownerName with
      | some nm => nm ++ "@example.com".toList
      | none => [],
    tags := [],
    content_summary := [],
    pdf_metadata := none,
    image_metadata := none }

/-- The per-file body of `map_folder`: base info, then the format-specific
sub-record chosen by the lower-cased extension. -/
def scanOne (f : ScanFile) : FileRecord :=
  if (get_file_info f).file_type = ".pdf".toList then
    { get_file_info f with pdf_metadata := some (get_pdf_metadata f.pdfReader) }
  else if (get_file_info f).file_type ∈ [".jpg".toList, ".jpeg".toList, ".png".toList] then
    { get_file_info f with image_metadata := some (get_image_metadata f.image) }
  else get_file_info f

/-- The function `map_folder`: scan every file of the walk in order and collect the
records. -/
def map_folder (walk : List ScanFile) : List FileRecord :=
  walk.map scanOne

/-! ## Concrete inputs for witnesses and counterexamples, and the dry-run projection -/

/-- A filesystem oracle on which the direct rename always succeeds. -/
def fsAllOk : FsOracle :=
  { directRename := fun _ _ => .ok, isWin32 := false,
    longRename := fun _ _ => false, copy2 := fun _ _ => false,
    remove := fun _ => false }

/-- A filesystem oracle whose direct rename raises a non-`FileNotFoundError`
exception while every fallback operation would succeed. -/
def fsOtherErr : FsOracle :=
  { directRename := fun _ _ => .otherError, isWin32 := true,
    longRename := fun _ _ => true, copy2 := fun _ _ => true,
    remove := fun _ => true }

/-- A win32 filesystem oracle: `FileNotFoundError` on the direct rename, the
prefixed rename raises, and the copy fails. -/
def fsCopyFails : FsOracle :=
  { directRename := fun _ _ => .fnfError, isWin32 := true,
    longRename := fun _ _ => false, copy2 := fun _ _ => false,
    remove := fun _ => true }

/-- A corrupt PDF as the scanner sees it: the reader raises. -/
def corruptPdf : ScanFile :=
  { path := "broken.pdf".toList,
    stat := { size := 17, hasBirthtime := false, birthtimeIso := [],
              ctimeIso := "2024-01-01T00:00:00".toList,
              mtimeIso := "2024-01-02T00:00:00".toList, ownerName := none },
    pdfReader := none,
    image := none }

/-- A deterministic name stream for concrete runs: distinct names for the
first three generation calls. -/
def genSeq : ℕ → Str :=
  fun k => if k = 0 then "n0".toList else if k = 1 then "n1".toList else "n2".toList

/-- A draw oracle that always chooses index 0. -/
def drawsZero : ℕ → ℕ → ℕ := fun _ _ => 0

/-- The generated-name stream induced by `drawsZero` at the default options:
every call yields `aaaaaaaaaa`. -/
def genAllA : ℕ → Str :=
  fun k => generate_random_name 10 true true false (drawsZero k)

/-- A draw oracle choosing `a` then nine dots (index 84 is `.` in the
88-character alphabet with special characters enabled). -/
def drawsDot : ℕ → ℕ → ℕ := fun _ i => if i = 0 then 0 else 84

/-- The generated-name stream induced by `drawsDot` with special characters
enabled: every call yields `a.........`. -/
def genDotName : ℕ → Str :=
  fun k => generate_random_name 10 true true true (drawsDot k)

/-- The components of the run state that a dry run and a real run share:
everything except the renamed/errors counters and the issued renames. -/
def coreOf (st : RunState) :
    List (Str × Str) × List (Str × List Str) × List (Str × Str) × ℕ × ℕ × ℕ × List Str :=
  (st.renamed_files, st.used_by_dir, st.log_files, st.total, st.skipped,
    st.genCalls, st.warnings)

/-! ## Helper lemmas -/

example : splitext "a.txt".toList = ("a".toList, ".txt".toList) := by decide
example : splitext ".bashrc".toList = (".bashrc".toList, "".toList) := by decide
example : splitext "..txt".toList = ("..txt".toList, "".toList) := by decide
example : splitext "a..txt".toList = ("a.".toList, ".txt".toList) := by decide
example : splitext "a.".toList = ("a".toList, ".".toList) := by decide
example : splitext "noext".toList = ("noext".toList, "".toList) := by decide
example : splitext "ab.cdefghij".toList = ("ab".toList, ".cdefghij".toList) := by decide
example : basename "a/b/c.txt".toList = "c.txt".toList := by decide
example : basename "c.txt".toList = "c.txt".toList := by decide
example : hasSub "el".toList "hello".toList = true := by decide
example : hasSub "xy".toList "hello".toList = false := by decide
example : splitOn ',' "a, b".toList = ["a".toList, " b".toList] := by decide
example : pyStrip " b ".toList = "b".toList := by decide

lemma getD_mem_cons : ∀ (l : Str) (n : ℕ) (c : Char), l.getD n c ∈ c :: l
  | [], n, c => by simp [List.getD]
  | x :: xs, 0, c => by simp [List.getD]
  | x :: xs, n + 1, c => by
      have h := getD_mem_cons xs n c
      simp only [List.getD, List.get?] at h ⊢
      rcases List.mem_cons.mp h with h | h
      · exact List.mem_cons.mpr (Or.inl h)
      · exact List.mem_cons.mpr (Or.inr (List.mem_cons.mpr (Or.inr h)))

lemma takeWhile_all_append {p : Char → Bool} :
    ∀ (l1 : Str) (c : Char) (l2 : Str), (∀ x ∈ l1, p x = true) → p c = false →
      (l1 ++ c :: l2).takeWhile p = l1
  | [], c, l2, _, hc => by
      rw [List.nil_append, List.takeWhile_cons, hc]
      simp
  | x :: xs, c, l2, h, hc => by
      have hx : p x = true := h x (List.mem_cons_self _ _)
      rw [List.cons_append, List.takeWhile_cons_of_pos hx,
        takeWhile_all_append xs c l2 (fun y hy => h y (List.mem_cons_of_mem _ hy)) hc]

lemma takeWhile_eq_self_of {p : Char → Bool} :
    ∀ (l : Str), (∀ x ∈ l, p x = true) → l.takeWhile p = l
  | [], _ => rfl
  | x :: xs, h => by
      have hx : p x = true := h x (List.mem_cons_self _ _)
      rw [List.takeWhile_cons_of_pos hx,
        takeWhile_eq_self_of xs (fun y hy => h y (List.mem_cons_of_mem _ hy))]

lemma dropWhile_head_false {p : Char → Bool} :
    ∀ (l : Str) (c : Char) (t : Str), l.dropWhile p = c :: t → p c = false
  | [], c, t, h => by simp [List.dropWhile] at h
  | x :: xs, c, t, h => by
      by_cases hx : p x = true
      · rw [List.dropWhile_cons_of_pos hx] at h
        exact dropWhile_head_false xs c t h
      · rw [List.dropWhile_cons_of_neg hx] at h
        cases h
        exact Bool.not_eq_true _ ▸ hx

/-- In the case where `splitext` finds an extension separator, decompose the
string around its last dot. -/
lemma splitext_decomp (s : Str)
    (h : (s.reverse.takeWhile (fun c => c ≠ '.')).length ≠ s.length) :
    ∃ pre : Str,
      s = pre ++ '.' :: (s.reverse.takeWhile (fun c => c ≠ '.')).reverse ∧
      pre.length = s.length - (s.reverse.takeWhile (fun c => c ≠ '.')).length - 1 := by
  set r := s.reverse.takeWhile (fun c => c ≠ '.') with hr
  have hsplit : r ++ s.reverse.dropWhile (fun c => c ≠ '.') = s.reverse := by
    rw [hr]
    exact List.takeWhile_append_dropWhile _ _
  cases hdw : s.reverse.dropWhile (fun c => c ≠ '.') with
  | nil =>
      exfalso
      apply h
      rw [hdw, List.append_nil] at hsplit
      rw [hsplit, List.length_reverse]
  | cons c dw' =>
      have hc : c = '.' := by
        have := dropWhile_head_false (s.reverse) c dw' hdw
        simpa using this
      subst hc
      rw [hdw] at hsplit
      have hs : s = dw'.reverse ++ '.' :: r.reverse := by
        have : s = (r ++ '.' :: dw').reverse := by
          rw [hsplit, List.reverse_reverse]
        rw [this]
        simp
      have hlen : s.length = r.length + 1 + dw'.length := by
        have := congrArg List.length hsplit
        simp only [List.length_append, List.length_cons, List.length_reverse] at this
        omega
      refine ⟨dw'.reverse, hs, ?_⟩
      rw [List.length_reverse]
      omega

lemma mem_takeWhile_ne_dot {s : Str} {x : Char}
    (hx : x ∈ s.takeWhile (fun c => c ≠ '.')) : x ≠ '.' := by
  have := List.mem_takeWhile_imp hx
  simpa using this

lemma splitext_no_dot (s : Str) (h : '.' ∉ s) : splitext s = (s, []) := by
  unfold splitext
  have htw : s.reverse.takeWhile (fun c => c ≠ '.') = s.reverse := by
    apply takeWhile_eq_self_of
    intro x hx
    simp only [decide_eq_true_eq]
    intro hxe
    exact h (hxe ▸ List.mem_reverse.mp hx)
  rw [htw, List.length_reverse, if_pos rfl]

/-- The extension returned by `splitext` is empty or a dot followed by a
dot-free tail. -/
lemma splitext_snd_shape (s : Str) :
    (splitext s).2 = [] ∨ ∃ t : Str, (splitext s).2 = '.' :: t ∧ '.' ∉ t := by
  by_cases hl : (s.reverse.takeWhile (fun c => c ≠ '.')).length = s.length
  · left
    unfold splitext
    rw [if_pos hl]
  · by_cases hall :
        ((s.take (s.length - (s.reverse.takeWhile (fun c => c ≠ '.')).length - 1)).all
          (fun c => c = '.')) = true
    · left
      unfold splitext
      rw [if_neg hl, if_pos hall]
    · obtain ⟨pre, hs, hp⟩ := splitext_decomp s hl
      right
      refine ⟨(s.reverse.takeWhile (fun c => c ≠ '.')).reverse, ?_, ?_⟩
      · unfold splitext
        rw [if_neg hl, if_neg hall]
        show s.drop _ = _
        rw [← hp]
        conv_lhs => rw [hs]
        exact List.drop_left pre _
      · intro hx
        exact mem_takeWhile_ne_dot (List.mem_reverse.mp hx) rfl

/-- Appending a well-formed extension to a nonempty dot-free base yields a
name whose `splitext` extension is exactly that extension. -/
lemma splitext_append_ext (b e : Str) (hb : b ≠ []) (hbd : '.' ∉ b)
    (he : e = [] ∨ ∃ t : Str, e = '.' :: t ∧ '.' ∉ t) :
    (splitext (b ++ e)).2 = e := by
  rcases he with rfl | ⟨t, rfl, ht⟩
  · rw [List.append_nil, splitext_no_dot b hbd]
  · unfold splitext
    have hrev : (b ++ '.' :: t).reverse = t.reverse ++ '.' :: b.reverse := by
      simp
    have htw : ((b ++ '.' :: t).reverse.takeWhile (fun c => c ≠ '.')) = t.reverse := by
      rw [hrev]
      apply takeWhile_all_append
      · intro x hx
        simp only [decide_eq_true_eq]
        intro hxe
        exact ht (hxe ▸ List.mem_reverse.mp hx)
      · simp
    rw [htw]
    have hlb : 1 ≤ b.length := List.length_pos.mpr hb
    have hlen : (b ++ '.' :: t).length = b.length + 1 + t.length := by
      rw [List.length_append, List.length_cons]
      omega
    have hne : ¬ t.reverse.length = (b ++ '.' :: t).length := by
      rw [hlen, List.length_reverse]
      omega
    rw [if_neg hne]
    have hp : (b ++ '.' :: t).length - t.reverse.length - 1 = b.length := by
      rw [hlen, List.length_reverse]
      omega
    rw [hp, List.take_left b, List.drop_left b]
    cases b with
    | nil => exact absurd rfl hb
    | cons hd tl =>
        have hhd : hd ≠ '.' := fun hh => hbd (hh ▸ List.mem_cons_self _ _)
        have hallf : ¬ ((hd :: tl).all fun c => c = '.') = true := by
          simp only [List.all_cons, Bool.and_eq_true, decide_eq_true_eq]
          intro hcon
          exact hhd hcon.1
        rw [if_neg hallf]

lemma generate_random_name_length (L : ℕ) (ul ud us : Bool) (draw : ℕ → ℕ) :
    (generate_random_name L ul ud us draw).length = L := by
  simp [generate_random_name]

/-- Every character of a generated name comes from the final alphabet or is
the `getD` default `'a'`. -/
lemma mem_generate_random_name (L : ℕ) (ul ud us : Bool) (draw : ℕ → ℕ) (c : Char)
    (hc : c ∈ generate_random_name L ul ud us draw) :
    c ∈ 'a' :: genCharsFinal ul ud us := by
  unfold generate_random_name at hc
  simp only [List.mem_map, List.mem_range] at hc
  obtain ⟨i, -, hi⟩ := hc
  exact hi ▸ getD_mem_cons _ _ _

/-- With special characters disabled, a generated name contains no dot. -/
lemma generate_random_name_no_dot (L : ℕ) (ul ud : Bool) (draw : ℕ → ℕ) :
    '.' ∉ generate_random_name L ul ud false draw := by
  intro hmem
  have h := mem_generate_random_name L ul ud false draw '.' hmem
  cases ul <;> cases ud <;> revert h <;> decide

lemma joinPath_inj (d : Str) {a b : Str} (h : joinPath d a = joinPath d b) : a = b := by
  unfold joinPath at h
  by_cases hd : d = []
  · rw [if_pos hd, if_pos hd] at h
    exact h
  · rw [if_neg hd, if_neg hd] at h
    have h2 := List.append_cancel_left h
    injection h2

lemma lookupDir_updateDir_self :
    ∀ (l : List (Str × List Str)) (d : Str) (v u : List Str),
      lookupDir l d = some u → lookupDir (updateDir l d v) d = some v
  | [], d, v, u, h => by simp [lookupDir] at h
  | (k, w) :: t, d, v, u, h => by
      by_cases hk : k = d
      · simp [lookupDir, updateDir, hk]
      · simp only [lookupDir, updateDir, hk, if_false, if_neg hk] at h ⊢
        exact lookupDir_updateDir_self t d v u h

/-- The collision loop returns a name that is fresh for the directory, built
by appending the extension to some generated base name at or after the
current generation counter. -/
lemma pickFresh_spec (gen : ℕ → Str) (extension : Str) (used : List Str) :
    ∀ (fuel k : ℕ) (nm : Str) (k' : ℕ),
      pickFresh gen extension used fuel k = some (nm, k') →
      nm ∉ used ∧ ∃ j, k ≤ j ∧ j < k + fuel ∧ nm = gen j ++ extension ∧ k' = j + 1
  | 0, k, nm, k', h => by simp [pickFresh] at h
  | fuel + 1, k, nm, k', h => by
      by_cases hu : gen k ++ extension ∈ used
      · simp only [pickFresh, if_pos hu] at h
        obtain ⟨hnm, j, hk, hj, he, hk'⟩ := pickFresh_spec gen extension used fuel (k + 1) nm k' h
        exact ⟨hnm, j, by omega, by omega, he, hk'⟩
      · simp only [pickFresh, if_neg hu] at h
        cases h
        exact ⟨hu, k, le_refl _, by omega, rfl, rfl⟩

/-- If some attempt within the fuel bound would produce an unused name, the
collision loop succeeds. -/
lemma pickFresh_terminates (gen : ℕ → Str) (extension : Str) (used : List Str) :
    ∀ (fuel k : ℕ),
      (∃ j, k ≤ j ∧ j < k + fuel ∧ gen j ++ extension ∉ used) →
      ∃ nm k', pickFresh gen extension used fuel k = some (nm, k')
  | 0, k, h => by
      obtain ⟨j, hk, hj, -⟩ := h
      omega
  | fuel + 1, k, h => by
      by_cases hu : gen k ++ extension ∈ used
      · obtain ⟨j, hk, hj, hfresh⟩ := h
        have hjk : j ≠ k := fun he => hfresh (he ▸ hu)
        obtain ⟨nm, k', hres⟩ :=
          pickFresh_terminates gen extension used fuel (k + 1) ⟨j, by omega, by omega, hfresh⟩
        exact ⟨nm, k', by simpa [pickFresh, if_pos hu] using hres⟩
      · exact ⟨gen k ++ extension, k + 1, by simp [pickFresh, if_neg hu]⟩

/-- A state property preserved by every step of an option-valued fold is
preserved by the whole fold. -/
lemma foldlM_invariant {α σ : Type} (f : σ → α → Option σ) (P : σ → Prop)
    (hf : ∀ s a s', P s → f s a = some s' → P s') :
    ∀ (l : List α) (s s' : σ), P s → List.foldlM f s l = some s' → P s'
  | [], s, s', hs, h => by
      rw [List.foldlM_nil] at h
      cases h
      exact hs
  | a :: l, s, s', hs, h => by
      rw [List.foldlM_cons] at h
      cases hfa : f s a with
      | none => rw [hfa] at h; simp at h
      | some s₁ =>
          rw [hfa] at h
          rw [Option.bind_eq_bind, Option.some_bind] at h
          exact foldlM_invariant f P hf l s₁ s' (hf s a s₁ hs hfa) h

/-- Splitting an option-valued fold at its first step. -/
lemma foldlM_cons_some {α σ : Type} (f : σ → α → Option σ) (a : α) (l : List α)
    (s s' : σ) (h : List.foldlM f s (a :: l) = some s') :
    ∃ s₁, f s a = some s₁ ∧ List.foldlM f s₁ l = some s' := by
  rw [List.foldlM_cons] at h
  cases hfa : f s a with
  | none => rw [hfa] at h; simp at h
  | some s₁ =>
      rw [hfa] at h
      rw [Option.bind_eq_bind, Option.some_bind] at h
      exact ⟨s₁, rfl, h⟩

/-- Two option-valued folds whose steps agree through a projection of the
state agree through that projection. -/
lemma foldlM_proj_congr {α σ τ : Type} (π : σ → τ) (f g : σ → α → Option σ)
    (hstep : ∀ s s' a, π s = π s' → ((f s a).map π) = ((g s' a).map π)) :
    ∀ (l : List α) (s s' : σ), π s = π s' →
      ((List.foldlM f s l).map π) = ((List.foldlM g s' l).map π)
  | [], s, s', hss => by
      rw [List.foldlM_nil, List.foldlM_nil]
      simpa using hss
  | a :: l, s, s', hss => by
      rw [List.foldlM_cons, List.foldlM_cons]
      have h := hstep s s' a hss
      cases hfa : f s a with
      | none =>
          rw [hfa] at h
          cases hga : g s' a with
          | none => simp
          | some y => rw [hga] at h; simp at h
      | some x =>
          rw [hfa] at h
          cases hga : g s' a with
          | none => rw [hga] at h; simp at h
          | some y =>
              rw [hga] at h
              simp only [Option.map_some'] at h
              rw [Option.bind_eq_bind, Option.some_bind, Option.some_bind]
              exact foldlM_proj_congr π f g hstep l x y (by injection h)

/-! ## Field lemmas for the per-file state transformers -/

@[simp] lemma addWarning_renamed_files (d f n : Str) (st : RunState) :
    (addWarning d f n st).renamed_files = st.renamed_files := by
  unfold addWarning
  split <;> rfl

@[simp] lemma addWarning_used_by_dir (d f n : Str) (st : RunState) :
    (addWarning d f n st).used_by_dir = st.used_by_dir := by
  unfold addWarning
  split <;> rfl

@[simp] lemma addWarning_log_files (d f n : Str) (st : RunState) :
    (addWarning d f n st).log_files = st.log_files := by
  unfold addWarning
  split <;> rfl

@[simp] lemma addWarning_total (d f n : Str) (st : RunState) :
    (addWarning d f n st).total = st.total := by
  unfold addWarning
  split <;> rfl

@[simp] lemma addWarning_renamed (d f n : Str) (st : RunState) :
    (addWarning d f n st).renamed = st.renamed := by
  unfold addWarning
  split <;> rfl

@[simp] lemma addWarning_skipped (d f n : Str) (st : RunState) :
    (addWarning d f n st).skipped = st.skipped := by
  unfold addWarning
  split <;> rfl

@[simp] lemma addWarning_errors (d f n : Str) (st : RunState) :
    (addWarning d f n st).errors = st.errors := by
  unfold addWarning
  split <;> rfl

@[simp] lemma addWarning_genCalls (d f n : Str) (st : RunState) :
    (addWarning d f n st).genCalls = st.genCalls := by
  unfold addWarning
  split <;> rfl

@[simp] lemma addWarning_fsRenames (d f n : Str) (st : RunState) :
    (addWarning d f n st).fsRenames = st.fsRenames := by
  unfold addWarning
  split <;> rfl

@[simp] lemma recordMapping_renamed_files (opts : Options) (st : RunState) (a b : Str) :
    (recordMapping opts st a b).renamed_files = st.renamed_files ++ [(a, b)] := by
  unfold recordMapping
  split <;> rfl

@[simp] lemma recordMapping_log_files (opts : Options) (st : RunState) (a b : Str) :
    (recordMapping opts st a b).log_files =
      if opts.create_log then st.log_files ++ [(a, b)] else st.log_files := by
  unfold recordMapping
  split <;> simp_all

@[simp] lemma recordMapping_used_by_dir (opts : Options) (st : RunState) (a b : Str) :
    (recordMapping opts st a b).used_by_dir = st.used_by_dir := by
  unfold recordMapping
  split <;> rfl

@[simp] lemma recordMapping_total (opts : Options) (st : RunState) (a b : Str) :
    (recordMapping opts st a b).total = st.total := by
  unfold recordMapping
  split <;> rfl

@[simp] lemma recordMapping_renamed (opts : Options) (st : RunState) (a b : Str) :
    (recordMapping opts st a b).renamed = st.renamed := by
  unfold recordMapping
  split <;> rfl

@[simp] lemma recordMapping_skipped (opts : Options) (st : RunState) (a b : Str) :
    (recordMapping opts st a b).skipped = st.skipped := by
  unfold recordMapping
  split <;> rfl

@[simp] lemma recordMapping_errors (opts : Options) (st : RunState) (a b : Str) :
    (recordMapping opts st a b).errors = st.errors := by
  unfold recordMapping
  split <;> rfl

@[simp] lemma recordMapping_genCalls (opts : Options) (st : RunState) (a b : Str) :
    (recordMapping opts st a b).genCalls = st.genCalls := by
  unfold recordMapping
  split <;> rfl

@[simp] lemma recordMapping_fsRenames (opts : Options) (st : RunState) (a b : Str) :
    (recordMapping opts st a b).fsRenames = st.fsRenames := by
  unfold recordMapping
  split <;> rfl

@[simp] lemma recordMapping_warnings (opts : Options) (st : RunState) (a b : Str) :
    (recordMapping opts st a b).warnings = st.warnings := by
  unfold recordMapping
  split <;> rfl

/-- Full characterization of one non-dry-run step of the walk: the total is
incremented and the file lands in exactly one of the three outcome buckets,
with the mapping and log extended only in the success bucket. -/
lemma processFile_step (opts : Options) (fs : FsOracle) (gen : ℕ → Str)
    (script_path : Str) (fuel : ℕ) (dpath : Str) (st : RunState) (filename : Str)
    (st' : RunState) (hdry : opts.dry_run = false)
    (h : processFile opts fs gen script_path fuel dpath st filename = some st') :
    st'.total = st.total + 1 ∧
    ((st'.skipped = st.skipped + 1 ∧ st'.renamed = st.renamed ∧ st'.errors = st.errors ∧
        st'.renamed_files = st.renamed_files ∧ st'.log_files = st.log_files) ∨
      (st'.skipped = st.skipped ∧ st'.renamed = st.renamed + 1 ∧ st'.errors = st.errors ∧
        ∃ o n, st'.renamed_files = st.renamed_files ++ [(o, n)] ∧
          st'.log_files =
            (if opts.create_log then st.log_files ++ [(o, n)] else st.log_files)) ∨
      (st'.skipped = st.skipped ∧ st'.renamed = st.renamed ∧ st'.errors = st.errors + 1 ∧
        st'.renamed_files = st.renamed_files ∧ st'.log_files = st.log_files)) := by
  unfold processFile at h
  split at h
  · cases h
    exact ⟨rfl, Or.inl ⟨rfl, rfl, rfl, rfl, rfl⟩⟩
  · split at h
    · exact Option.noConfusion h
    · rename_i new_name k' heq
      cases h
      unfold processRename
      rw [if_neg (by rw [hdry]; exact Bool.false_ne_true)]
      split
      · refine ⟨by simp, Or.inr (Or.inl ⟨by simp, by simp, by simp, ?_⟩)⟩
        exact ⟨joinPath dpath filename, joinPath dpath new_name, by simp, by simp⟩
      · exact ⟨by simp, Or.inr (Or.inr ⟨by simp, by simp, by simp, by simp, by simp⟩)⟩

/-! ## Concrete oracles used by witnesses and counterexamples -/

lemma fsAllOk_success (o n : Str) : (safe_rename fsAllOk o n).success = true := rfl

/-! ## Claims -/

/-- C2, as stated, is false: when the direct rename fails with an exception
other than `FileNotFoundError`, `safe_rename` returns failure at once — the
file is counted as an error although neither the long-path tier nor the
copy-then-delete tier was attempted, and although both would have
succeeded here. -/
theorem claim2_counterexample :
    (safe_rename fsOtherErr "a".toList "b".toList).success = false ∧
    (safe_rename fsOtherErr "a".toList "b".toList).usedLongPath = false ∧
    (safe_rename fsOtherErr "a".toList "b".toList).triedCopy = false ∧
    fsOtherErr.longRename "a".toList "b".toList = true ∧
    fsOtherErr.copy2 "a".toList "b".toList = true ∧
    ((processFile {} fsOtherErr genSeq "s.py".toList 4 [] {} "a.txt".toList).map
      (fun s => s.errors)) = some 1 := by
  decide

/-- C2 (amended): the fallback ladder is entered only when the direct rename
fails with `FileNotFoundError` on win32; the copy-then-delete tier is
attempted exactly when the long-path rename also fails there; and the call
succeeds exactly when the direct rename succeeds, or the long-path rename
succeeds, or the copy and the delete both succeed after both earlier tiers
failed. Any other direct-rename failure (and any `FileNotFoundError` off
win32) is an immediate failure with no further tier attempted. -/
theorem claim2_fallback_tiers (fs : FsOracle) (old_path new_path : Str) :
    ((safe_rename fs old_path new_path).usedLongPath = true ↔
      (fs.directRename old_path new_path = .fnfError ∧ fs.isWin32 = true)) ∧
    ((safe_rename fs old_path new_path).triedCopy = true ↔
      (fs.directRename old_path new_path = .fnfError ∧ fs.isWin32 = true ∧
        fs.longRename old_path new_path = false)) ∧
    ((safe_rename fs old_path new_path).success = true ↔
      (fs.directRename old_path new_path = .ok ∨
        (fs.directRename old_path new_path = .fnfError ∧ fs.isWin32 = true ∧
          (fs.longRename old_path new_path = true ∨
            (fs.longRename old_path new_path = false ∧
              fs.copy2 old_path new_path = true ∧ fs.remove old_path = true))))) := by
  cases hdr : fs.directRename old_path new_path <;>
    cases hw : fs.isWin32 <;>
    cases hl : fs.longRename old_path new_path <;>
    cases hc : fs.copy2 old_path new_path <;>
    cases hr : fs.remove old_path <;>
    simp [safe_rename, hdr, hw, hl, hc, hr]

/-- Witness for C2's amended theorem at a concrete oracle: the copy tier is
reached exactly under the stated conditions. -/
theorem claim2_fallback_tiers_witness :
    (safe_rename fsCopyFails "a".toList "b".toList).triedCopy = true :=
  (claim2_fallback_tiers fsCopyFails "a".toList "b".toList).2.1.mpr ⟨rfl, rfl, rfl⟩

/-- C3: in the copy-then-delete tier, the original is removed only after a
successful copy, and when the copy fails the call reports failure and the
original is untouched. -/
theorem claim3_copy_then_delete (fs : FsOracle) (old_path new_path : Str) :
    ((safe_rename fs old_path new_path).removedOriginal = true →
      (safe_rename fs old_path new_path).copied = true) ∧
    ((safe_rename fs old_path new_path).triedCopy = true →
      (safe_rename fs old_path new_path).copied = false →
      (safe_rename fs old_path new_path).success = false ∧
      (safe_rename fs old_path new_path).removedOriginal = false) := by
  cases hdr : fs.directRename old_path new_path <;>
    cases hw : fs.isWin32 <;>
    cases hl : fs.longRename old_path new_path <;>
    cases hc : fs.copy2 old_path new_path <;>
    cases hr : fs.remove old_path <;>
    simp [safe_rename, hdr, hw, hl, hc, hr]

/-- Witness for C3 at a concrete oracle whose copy fails: the call fails and
the original is not removed. -/
theorem claim3_copy_then_delete_witness :
    (safe_rename fsCopyFails "a".toList "b".toList).success = false ∧
    (safe_rename fsCopyFails "a".toList "b".toList).removedOriginal = false :=
  (claim3_copy_then_delete fsCopyFails "a".toList "b".toList).2 rfl rfl

/-- C7: whenever some attempt within the fuel bound would draw a name unused
in the current directory, the collision-avoidance loop terminates and yields
a name that is fresh for the directory and of the generated shape. -/
theorem claim7_collision_loop_terminates (gen : ℕ → Str) (extension : Str)
    (used : List Str) (fuel k : ℕ)
    (h : ∃ j, k ≤ j ∧ j < k + fuel ∧ gen j ++ extension ∉ used) :
    ∃ nm k', pickFresh gen extension used fuel k = some (nm, k') ∧
      nm ∉ used ∧ ∃ j, nm = gen j ++ extension := by
  obtain ⟨nm, k', hres⟩ := pickFresh_terminates gen extension used fuel k h
  obtain ⟨hfresh, j, -, -, hj, -⟩ := pickFresh_spec gen extension used fuel k nm k' hres
  exact ⟨nm, k', hres, hfresh, j, hj⟩

/-- Witness for C7 on a concrete stream whose first draw collides and whose
second is fresh. -/
theorem claim7_collision_loop_terminates_witness :
    ∃ nm k',
      pickFresh (fun j => if j = 0 then "aa".toList else "bb".toList) []
        ["aa".toList] 2 0 = some (nm, k') ∧
      nm ∉ ["aa".toList] ∧
      ∃ j, nm = (fun j => if j = 0 then "aa".toList else "bb".toList) j ++ [] :=
  claim7_collision_loop_terminates _ _ _ 2 0 ⟨1, by decide, by decide, by decide⟩

/-- C8: a scanned file with a PDF (or image) extension whose format-specific
extraction raises is still emitted, with an empty mapping as its
format-specific sub-record; the scan itself is a total function, so no
exception propagates past it. -/
theorem claim8_scan_error_degrades (walk : List ScanFile) (f : ScanFile)
    (hf : f ∈ walk) :
    ((get_file_info f).file_type = ".pdf".toList → f.pdfReader = none →
      ∃ rec, rec ∈ map_folder walk ∧ rec.file_path = f.path ∧
        rec.pdf_metadata = some []) ∧
    ((get_file_info f).file_type ∈ [".jpg".toList, ".jpeg".toList, ".png".toList] →
      f.image = none →
      ∃ rec, rec ∈ map_folder walk ∧ rec.file_path = f.path ∧
        rec.image_metadata = some []) := by
  constructor
  · intro hext herr
    refine ⟨scanOne f, List.mem_map_of_mem _ hf, ?_, ?_⟩
    · unfold scanOne
      rw [if_pos hext]
      rfl
    · unfold scanOne
      rw [if_pos hext, herr]
      rfl
  · intro hext herr
    have hne : ¬ (get_file_info f).file_type = ".pdf".toList := by
      intro hp
      rw [hp] at hext
      revert hext
      decide
    refine ⟨scanOne f, List.mem_map_of_mem _ hf, ?_, ?_⟩
    · unfold scanOne
      rw [if_neg hne, if_pos hext]
      rfl
    · unfold scanOne
      rw [if_neg hne, if_pos hext, herr]
      rfl

/-- Witness for C8: a one-file scan of a corrupt PDF yields a record with an
empty `pdf_metadata`. -/
theorem claim8_scan_error_degrades_witness :
    ∃ rec, rec ∈ map_folder [corruptPdf] ∧ rec.file_path = corruptPdf.path ∧
      rec.pdf_metadata = some [] :=
  (claim8_scan_error_degrades [corruptPdf] corruptPdf (by simp)).1 (by decide) rfl

/-- C6, as stated, is false: the code lower-cases only the file's extension
and compares it against the configured entries as given, so a file whose
extension matches a configured entry case-insensitively (here `.pdf` against
a configured `.PDF`) is not skipped: it is renamed and recorded in the
mapping. -/
theorem claim6_counterexample :
    strLower (splitext (basename "doc.pdf".toList)).2 ∈
      (mkExcludeExtensions ["PDF".toList]).map strLower ∧
    ((rename_files_recursively
        { exclude_extensions := mkExcludeExtensions ["PDF".toList] }
        fsAllOk genSeq "s.py".toList 4 [⟨[], ["doc.pdf".toList]⟩]).map
      (fun res => (res.state.skipped, res.state.renamed, res.state.renamed_files)))
      = some (0, 1, [("doc.pdf".toList, "n0.pdf".toList)]) := by
  decide

/-- C6 (amended): a file whose lower-cased extension is literally in the
configured exclusion list (each `--exclude-ext` entry used as given, with a
dot prefixed after stripping leading dots and with no case normalization) is
counted as skipped, no rename is issued for it, and it is not added to the
mapping. -/
theorem claim6_exclusion (opts : Options) (fs : FsOracle) (gen : ℕ → Str)
    (script_path : Str) (fuel : ℕ) (dpath : Str) (st : RunState) (filename : Str)
    (st' : RunState)
    (hmem : strLower (splitext (basename (joinPath dpath filename))).2 ∈
      opts.exclude_extensions)
    (h : processFile opts fs gen script_path fuel dpath st filename = some st') :
    st'.skipped = st.skipped + 1 ∧ st'.total = st.total + 1 ∧
    st'.renamed_files = st.renamed_files ∧ st'.fsRenames = st.fsRenames := by
  have hexcl : should_exclude_file (joinPath dpath filename) script_path opts = true := by
    unfold should_exclude_file
    by_cases hs : (opts.exclude_script && decide (joinPath dpath filename = script_path)) = true
    · rw [if_pos hs]
    · rw [if_neg hs, if_pos hmem]
  unfold processFile at h
  rw [if_pos hexcl] at h
  cases h
  exact ⟨rfl, rfl, rfl, rfl⟩

/-- Witness for C6's amended theorem: a `.txt` file against a configured
lowercase `.txt` entry is skipped and the mapping stays empty. -/
theorem claim6_exclusion_witness :
    ∃ st', processFile { exclude_extensions := mkExcludeExtensions ["txt".toList] }
        fsAllOk genSeq "s.py".toList 4 [] {} "a.txt".toList = some st' ∧
      st'.skipped = ({} : RunState).skipped + 1 ∧
      st'.renamed_files = ({} : RunState).renamed_files := by
  cases hres : processFile { exclude_extensions := mkExcludeExtensions ["txt".toList] }
      fsAllOk genSeq "s.py".toList 4 [] {} "a.txt".toList with
  | none => exact absurd hres (by decide)
  | some st' =>
      have h := claim6_exclusion _ fsAllOk genSeq "s.py".toList 4 [] {} "a.txt".toList
        st' (by decide) hres
      exact ⟨st', rfl, h.1, h.2.2.1⟩

/-- C9: in a non-dry-run, every processed file increments the total and
exactly one of the renamed/skipped/errors counters, all four counters are
non-decreasing across a step, and at the end of any completed run
`total = renamed + skipped + errors`. -/
theorem claim9_counters (opts : Options) (hdry : opts.dry_run = false)
    (fs : FsOracle) (gen : ℕ → Str) (script_path : Str) (fuel : ℕ) :
    (∀ dpath st filename st',
      processFile opts fs gen script_path fuel dpath st filename = some st' →
      st'.total = st.total + 1 ∧
      st'.renamed + st'.skipped + st'.errors = st.renamed + st.skipped + st.errors + 1 ∧
      st.renamed ≤ st'.renamed ∧ st.skipped ≤ st'.skipped ∧ st.errors ≤ st'.errors) ∧
    (∀ dirs res,
      rename_files_recursively opts fs gen script_path fuel dirs = some res →
      res.state.total = res.state.renamed + res.state.skipped + res.state.errors) := by
  have hstep : ∀ dpath st filename st',
      processFile opts fs gen script_path fuel dpath st filename = some st' →
      st'.total = st.total + 1 ∧
      st'.renamed + st'.skipped + st'.errors = st.renamed + st.skipped + st.errors + 1 ∧
      st.renamed ≤ st'.renamed ∧ st.skipped ≤ st'.skipped ∧ st.errors ≤ st'.errors := by
    intro dpath st filename st' h
    obtain ⟨ht, hc⟩ := processFile_step opts fs gen script_path fuel dpath st filename
      st' hdry h
    rcases hc with ⟨h1, h2, h3, -, -⟩ | ⟨h1, h2, h3, -⟩ | ⟨h1, h2, h3, -, -⟩ <;>
      exact ⟨ht, by omega, by omega, by omega, by omega⟩
  refine ⟨hstep, ?_⟩
  intro dirs res h
  have hdirstep : ∀ st d st',
      st.total = st.renamed + st.skipped + st.errors →
      processDir opts fs gen script_path fuel st d = some st' →
      st'.total = st'.renamed + st'.skipped + st'.errors := by
    intro st d st' hP h
    have hfile : ∀ s a s', s.total = s.renamed + s.skipped + s.errors →
        processFile opts fs gen script_path fuel d.path s a = some s' →
        s'.total = s'.renamed + s'.skipped + s'.errors := by
      intro s a s' hPs hsa
      obtain ⟨ht, hsum, -, -, -⟩ := hstep d.path s a s' hsa
      omega
    unfold processDir at h
    split at h
    · exact foldlM_invariant _ _ hfile d.files st st' hP h
    · exact foldlM_invariant _ _ hfile d.files
        { st with used_by_dir := st.used_by_dir ++ [(d.path, [])] } st' hP h
  unfold rename_files_recursively at h
  split at h
  · exact Option.noConfusion h
  · rename_i st hst
    cases h
    exact foldlM_invariant _ _ hdirstep dirs {} st rfl hst

/-- Witness for C9 on a concrete two-file run. -/
theorem claim9_counters_witness :
    ∃ res, rename_files_recursively {} fsAllOk genSeq "s.py".toList 4
        [⟨[], ["a.txt".toList, "b.txt".toList]⟩] = some res ∧
      res.state.total = res.state.renamed + res.state.skipped + res.state.errors := by
  cases hres : rename_files_recursively {} fsAllOk genSeq "s.py".toList 4
      [⟨[], ["a.txt".toList, "b.txt".toList]⟩] with
  | none => exact absurd hres (by decide)
  | some res =>
      exact ⟨res, rfl,
        (claim9_counters {} rfl fsAllOk genSeq "s.py".toList 4).2 _ res hres⟩

/-- C10: in a non-dry-run step, a file whose rename failed in all attempted
tiers is recorded in neither the mapping nor the log data, and the mapping
grows only when the rename was counted as a success. -/
theorem claim10_errors_not_recorded (opts : Options) (fs : FsOracle) (gen : ℕ → Str)
    (script_path : Str) (fuel : ℕ) (dpath : Str) (st : RunState) (filename : Str)
    (st' : RunState) (hdry : opts.dry_run = false)
    (h : processFile opts fs gen script_path fuel dpath st filename = some st') :
    (st'.errors = st.errors + 1 →
      st'.renamed_files = st.renamed_files ∧ st'.log_files = st.log_files) ∧
    (st'.renamed_files ≠ st.renamed_files →
      st'.renamed = st.renamed + 1 ∧ st'.errors = st.errors) := by
  obtain ⟨-, hc⟩ := processFile_step opts fs gen script_path fuel dpath st filename
    st' hdry h
  constructor
  · intro he
    rcases hc with ⟨-, -, -, h4, h5⟩ | ⟨-, -, h3, -⟩ | ⟨-, -, -, h4, h5⟩
    · exact ⟨h4, h5⟩
    · exact absurd he (by omega)
    · exact ⟨h4, h5⟩
  · intro hne
    rcases hc with ⟨-, -, -, h4, -⟩ | ⟨-, h2, h3, -, -, -, -⟩ | ⟨-, -, -, h4, -⟩
    · exact absurd h4 hne
    · exact ⟨h2, h3⟩
    · exact absurd h4 hne

/-- Witness for C10: with an always-failing filesystem the single processed
file is counted as an error and the mapping and log stay empty. -/
theorem claim10_errors_not_recorded_witness :
    ∃ st', processFile {} fsOtherErr genSeq "s.py".toList 4 [] {} "a.txt".toList
        = some st' ∧
      st'.renamed_files = ({} : RunState).renamed_files ∧
      st'.log_files = ({} : RunState).log_files := by
  cases hres : processFile {} fsOtherErr genSeq "s.py".toList 4 [] {} "a.txt".toList with
  | none => exact absurd hres (by decide)
  | some st' =>
      have herr : st'.errors = ({} : RunState).errors + 1 := by
        have heval : (processFile {} fsOtherErr genSeq "s.py".toList 4 [] {}
            "a.txt".toList).map (fun s => s.errors) = some 1 := by decide
        rw [hres] at heval
        simpa using heval
      have h := (claim10_errors_not_recorded {} fsOtherErr genSeq "s.py".toList 4 [] {}
        "a.txt".toList st' rfl hres).1 herr
      exact ⟨st', rfl, h⟩

/-- The mapping after the post-pick tail of a step: unchanged (error) or
extended by exactly this file's entry. -/
lemma processRename_renamed_files (opts : Options) (fs : FsOracle)
    (dpath filename new_name : Str) (st : RunState) :
    (processRename opts fs dpath filename new_name st).renamed_files = st.renamed_files ∨
    (processRename opts fs dpath filename new_name st).renamed_files =
      st.renamed_files ++ [(joinPath dpath filename, joinPath dpath new_name)] := by
  unfold processRename
  split
  · right
    simp
  · split
    · right
      simp
    · left
      simp

/-- C5, as stated, is false: with `--special`, the special-character set
contains `.`, so a generated base name can contain a dot; renaming an
extension-less file `file` to `a.........` gives the new name the extension
`.` while the old name had none. -/
theorem claim5_counterexample :
    ((processFile { use_special := true } fsAllOk genDotName "s.py".toList 3 [] {}
        "file".toList).map (fun st => st.renamed_files))
      = some [("file".toList, "a.........".toList)] ∧
    (splitext "a.........".toList).2 ≠ (splitext "file".toList).2 := by
  decide

/-- C5 (amended): for every renamed file, the new name is a generated random
base followed by the old name's `splitext` extension; whenever the generated
base is nonempty and dot-free — in particular always when special characters
are disabled and the configured length is positive — the `splitext`
extension of the new name equals the old one character for character, case
included. -/
theorem claim5_extension_preserved (opts : Options) (fs : FsOracle) (gen : ℕ → Str)
    (draws : ℕ → ℕ → ℕ)
    (hgen : ∀ k, gen k = generate_random_name opts.name_length opts.use_letters
      opts.use_digits opts.use_special (draws k))
    (hsp : opts.use_special = false) (hL : 0 < opts.name_length)
    (script_path : Str) (fuel : ℕ) (dpath : Str) (st : RunState) (filename : Str)
    (st' : RunState) (o n : Str)
    (h : processFile opts fs gen script_path fuel dpath st filename = some st')
    (hm : st'.renamed_files = st.renamed_files ++ [(o, n)]) :
    ∃ b : Str, n = joinPath dpath (b ++ (splitext filename).2) ∧
      (splitext (b ++ (splitext filename).2)).2 = (splitext filename).2 := by
  unfold processFile at h
  split at h
  · cases h
    have := congrArg List.length hm
    simp at this
  · split at h
    · exact Option.noConfusion h
    · rename_i nm k' hpick
      cases h
      obtain ⟨-, j, -, -, hnm, -⟩ :=
        pickFresh_spec gen (splitext filename).2 _ fuel st.genCalls nm k' hpick
      rcases processRename_renamed_files opts fs dpath filename nm
          { st with total := st.total + 1, genCalls := k',
                    used_by_dir := updateDir st.used_by_dir dpath
                      (nm :: (lookupDir st.used_by_dir dpath).getD []) } with hrf | hrf
      · rw [hrf] at hm
        have := congrArg List.length hm
        simp at this
      · rw [hrf] at hm
        have hsing := List.append_cancel_left hm.symm
        have hpair : o = joinPath dpath filename ∧ n = joinPath dpath nm := by
          have := List.head_eq_of_cons_eq hsing
          exact ⟨congrArg Prod.fst this, congrArg Prod.snd this⟩
        have hbn : gen j ≠ [] := by
          rw [hgen j]
          intro hnil
          have := generate_random_name_length opts.name_length opts.use_letters
            opts.use_digits opts.use_special (draws j)
          rw [hnil] at this
          simp at this
          omega
        have hbd : '.' ∉ gen j := by
          rw [hgen j, hsp]
          exact generate_random_name_no_dot _ _ _ _
        refine ⟨gen j, ?_, ?_⟩
        · rw [hpair.2, hnm]
        · exact splitext_append_ext (gen j) (splitext filename).2 hbn hbd
            (splitext_snd_shape filename)

/-- Witness for C5's amended theorem on a concrete step with the default
options: `a.txt` becomes `aaaaaaaaaa.txt` and the `.txt` extension is
preserved. -/
theorem claim5_extension_preserved_witness :
    ∃ b : Str,
      "aaaaaaaaaa.txt".toList = joinPath [] (b ++ (splitext "a.txt".toList).2) ∧
      (splitext (b ++ (splitext "a.txt".toList).2)).2 = (splitext "a.txt".toList).2 := by
  cases hres : processFile {} fsAllOk genAllA "s.py".toList 3 [] {} "a.txt".toList with
  | none => exact absurd hres (by decide)
  | some st' =>
      have hmap : st'.renamed_files =
          ({} : RunState).renamed_files ++ [("a.txt".toList, "aaaaaaaaaa.txt".toList)] := by
        have heval : (processFile {} fsAllOk genAllA "s.py".toList 3 [] {}
            "a.txt".toList).map (fun s => s.renamed_files)
            = some [("a.txt".toList, "aaaaaaaaaa.txt".toList)] := by decide
        rw [hres] at heval
        simpa using heval
      exact claim5_extension_preserved {} fsAllOk genAllA drawsZero (fun k => rfl) rfl
        (by decide) "s.py".toList 3 [] {} "a.txt".toList st' "a.txt".toList
        "aaaaaaaaaa.txt".toList hres hmap

@[simp] lemma addWarning_warnings (d f n : Str) (st : RunState) :
    (addWarning d f n st).warnings =
      if is_long_path (joinPath d f) || is_long_path (joinPath d n) then
        st.warnings ++ [joinPath d f]
      else st.warnings := by
  unfold addWarning
  split <;> simp_all

lemma coreOf_eq_iff (st st2 : RunState) :
    coreOf st = coreOf st2 ↔
      (st.renamed_files = st2.renamed_files ∧ st.used_by_dir = st2.used_by_dir ∧
        st.log_files = st2.log_files ∧ st.total = st2.total ∧
        st.skipped = st2.skipped ∧ st.genCalls = st2.genCalls ∧
        st.warnings = st2.warnings) := by
  unfold coreOf
  simp [Prod.ext_iff]

/-- A dry-run `processRename` and a real `processRename` on an always-
successful filesystem produce the same core state. -/
lemma processRename_core_dry_real (opts : Options) (hdry : opts.dry_run = true)
    (fs fs2 : FsOracle) (hok : ∀ o n, (safe_rename fs2 o n).success = true)
    (dpath filename new_name : Str) (stA stB : RunState)
    (hcore : coreOf stA = coreOf stB) :
    coreOf (processRename opts fs dpath filename new_name stA) =
      coreOf (processRename { opts with dry_run := false } fs2 dpath filename
        new_name stB) := by
  obtain ⟨h1, h2, h3, h4, h5, h6, h7⟩ := (coreOf_eq_iff stA stB).mp hcore
  unfold processRename
  rw [if_pos (show opts.dry_run = true from hdry)]
  rw [if_neg (show ¬ ({ opts with dry_run := false } : Options).dry_run = true by
    exact Bool.false_ne_true)]
  rw [if_pos (hok (joinPath dpath filename) (joinPath dpath new_name))]
  rw [coreOf_eq_iff]
  refine ⟨?_, ?_, ?_, ?_, ?_, ?_, ?_⟩ <;> simp [h1, h2, h3, h4, h5, h6, h7]

/-- A dry-run step and a real step on an always-successful filesystem
produce the same core state. -/
lemma processFile_core_dry_real (opts : Options) (hdry : opts.dry_run = true)
    (fs fs2 : FsOracle) (hok : ∀ o n, (safe_rename fs2 o n).success = true)
    (gen : ℕ → Str) (script_path : Str) (fuel : ℕ) (dpath : Str)
    (st st2 : RunState) (filename : Str) (hcore : coreOf st = coreOf st2) :
    (processFile opts fs gen script_path fuel dpath st filename).map coreOf =
      (processFile { opts with dry_run := false } fs2 gen script_path fuel dpath
        st2 filename).map coreOf := by
  obtain ⟨h1, h2, h3, h4, h5, h6, h7⟩ := (coreOf_eq_iff st st2).mp hcore
  unfold processFile
  rw [← h2, ← h6]
  by_cases hex : should_exclude_file (joinPath dpath filename) script_path opts = true
  · rw [if_pos hex,
      if_pos (show should_exclude_file (joinPath dpath filename) script_path
        { opts with dry_run := false } = true from hex)]
    simp only [Option.map_some']
    refine congrArg some ?_
    rw [coreOf_eq_iff]
    exact ⟨h1, rfl, h3, by rw [h4], by rw [h5], rfl, h7⟩
  · rw [if_neg hex,
      if_neg (show ¬ should_exclude_file (joinPath dpath filename) script_path
        { opts with dry_run := false } = true from hex)]
    cases hp : pickFresh gen (splitext filename).2
        ((lookupDir st.used_by_dir dpath).getD []) fuel st.genCalls with
    | none => rfl
    | some p =>
        cases p with
        | mk nm k' =>
            simp only [Option.map_some']
            refine congrArg some (processRename_core_dry_real opts hdry fs fs2 hok
              dpath filename nm _ _ ?_)
            rw [coreOf_eq_iff]
            exact ⟨h1, rfl, h3, by rw [h4], by rw [h5], rfl, h7⟩

/-- A dry-run directory pass and a real one on an always-successful
filesystem produce the same core state. -/
lemma processDir_core_dry_real (opts : Options) (hdry : opts.dry_run = true)
    (fs fs2 : FsOracle) (hok : ∀ o n, (safe_rename fs2 o n).success = true)
    (gen : ℕ → Str) (script_path : Str) (fuel : ℕ)
    (st st2 : RunState) (d : Dir) (hcore : coreOf st = coreOf st2) :
    (processDir opts fs gen script_path fuel st d).map coreOf =
      (processDir { opts with dry_run := false } fs2 gen script_path fuel st2 d).map
        coreOf := by
  obtain ⟨h1, h2, h3, h4, h5, h6, h7⟩ := (coreOf_eq_iff st st2).mp hcore
  unfold processDir
  rw [← h2]
  cases hl : lookupDir st.used_by_dir d.path with
  | some u =>
      exact foldlM_proj_congr coreOf _ _
        (fun s s' a hss =>
          processFile_core_dry_real opts hdry fs fs2 hok gen script_path fuel d.path
            s s' a hss)
        d.files st st2 hcore
  | none =>
      refine foldlM_proj_congr coreOf _ _
        (fun s s' a hss =>
          processFile_core_dry_real opts hdry fs fs2 hok gen script_path fuel d.path
            s s' a hss)
        d.files _ _ ?_
      rw [coreOf_eq_iff]
      exact ⟨h1, by rw [h2], h3, h4, h5, h6, h7⟩

/-- A dry-run step leaves the issued-renames list unchanged. -/
lemma processFile_dry_fsRenames (opts : Options) (hdry : opts.dry_run = true)
    (fs : FsOracle) (gen : ℕ → Str) (script_path : Str) (fuel : ℕ) (dpath : Str)
    (st : RunState) (filename : Str) (st' : RunState)
    (h : processFile opts fs gen script_path fuel dpath st filename = some st') :
    st'.fsRenames = st.fsRenames := by
  unfold processFile at h
  split at h
  · cases h
    rfl
  · split at h
    · exact Option.noConfusion h
    · cases h
      unfold processRename
      rw [if_pos (show opts.dry_run = true from hdry)]
      simp

/-- C4: after a dry run no rename has been issued and no log file is
written, while the mapping, the per-directory used-name sets, the log data,
the generation counter and every shared counter are exactly those of a real
run with the same name stream in which every rename succeeds. -/
theorem claim4_dry_run_frame (opts : Options) (hdry : opts.dry_run = true)
    (fs fs2 : FsOracle) (hok : ∀ o n, (safe_rename fs2 o n).success = true)
    (gen : ℕ → Str) (script_path : Str) (fuel : ℕ) (dirs : List Dir) (res : RunResult)
    (h : rename_files_recursively opts fs gen script_path fuel dirs = some res) :
    res.state.fsRenames = [] ∧ res.log_written = false ∧
    ∀ res', rename_files_recursively { opts with dry_run := false } fs2 gen
        script_path fuel dirs = some res' →
      coreOf res'.state = coreOf res.state := by
  unfold rename_files_recursively at h
  split at h
  · exact Option.noConfusion h
  · rename_i st hst
    cases h
    refine ⟨?_, ?_, ?_⟩
    · have hdirstep : ∀ s (d : Dir) s', s.fsRenames = [] →
          processDir opts fs gen script_path fuel s d = some s' →
          s'.fsRenames = [] := by
        intro s d s' hP hd
        have hfile : ∀ t a t', t.fsRenames = [] →
            processFile opts fs gen script_path fuel d.path t a = some t' →
            t'.fsRenames = [] := by
          intro t a t' hPt hta
          rw [processFile_dry_fsRenames opts hdry fs gen script_path fuel d.path
            t a t' hta]
          exact hPt
        unfold processDir at hd
        split at hd
        · exact foldlM_invariant _ _ hfile d.files s s' hP hd
        · exact foldlM_invariant _ _ hfile d.files
            { s with used_by_dir := s.used_by_dir ++ [(d.path, [])] } s' hP hd
      exact foldlM_invariant _ _ hdirstep dirs {} st rfl hst
    · simp [hdry]
    · intro res' h'
      unfold rename_files_recursively at h'
      split at h'
      · exact Option.noConfusion h'
      · rename_i st2 hst2
        cases h'
        have := foldlM_proj_congr coreOf
          (processDir opts fs gen script_path fuel)
          (processDir { opts with dry_run := false } fs2 gen script_path fuel)
          (fun s s' a hss =>
            processDir_core_dry_real opts hdry fs fs2 hok gen script_path fuel
              s s' a hss)
          dirs {} {} rfl
        rw [hst, hst2] at this
        simp only [Option.map_some'] at this
        exact (Option.some.injEq _ _ ▸ this).symm

/-- Witness for C4 on a concrete two-file dry run against the same real
run. -/
theorem claim4_dry_run_frame_witness :
    ∃ res, rename_files_recursively { dry_run := true } fsOtherErr genSeq
        "s.py".toList 4 [⟨[], ["a.txt".toList, "b.txt".toList]⟩] = some res ∧
      res.state.fsRenames = [] ∧ res.log_written = false := by
  cases hres : rename_files_recursively { dry_run := true } fsOtherErr genSeq
      "s.py".toList 4 [⟨[], ["a.txt".toList, "b.txt".toList]⟩] with
  | none => exact absurd hres (by decide)
  | some res =>
      have h := claim4_dry_run_frame { dry_run := true } rfl fsOtherErr fsAllOk
        (fun o n => rfl) genSeq "s.py".toList 4
        [⟨[], ["a.txt".toList, "b.txt".toList]⟩] res hres
      exact ⟨res, rfl, h.1, h.2.1⟩

@[simp] lemma processRename_used_by_dir (opts : Options) (fs : FsOracle)
    (d f n : Str) (st : RunState) :
    (processRename opts fs d f n st).used_by_dir = st.used_by_dir := by
  unfold processRename
  split
  · simp
  · split <;> simp

/-- In a real run whose rename succeeds, the step appends exactly this
file's entry to the mapping. -/
lemma processRename_real_ok (opts : Options) (fs : FsOracle) (d f n : Str)
    (st : RunState) (hdry : opts.dry_run = false)
    (hsucc : (safe_rename fs (joinPath d f) (joinPath d n)).success = true) :
    (processRename opts fs d f n st).renamed_files =
      st.renamed_files ++ [(joinPath d f, joinPath d n)] := by
  unfold processRename
  rw [if_neg (by rw [hdry]; exact Bool.false_ne_true), if_pos hsucc]
  simp

/-- Invariant induction for C1 over the files of a single directory: the
used-name set stays duplicate-free, the mapping's values are exactly the
used names joined to the directory, and its keys are the processed files. -/
lemma claim1_aux (opts : Options) (fs : FsOracle) (gen : ℕ → Str)
    (script_path : Str) (fuel : ℕ) (d : Str)
    (hdry : opts.dry_run = false)
    (hok : ∀ o n, (safe_rename fs o n).success = true) :
    ∀ (files : List Str) (st st' : RunState) (u : List Str),
      files.Nodup →
      (∀ f ∈ files, should_exclude_file (joinPath d f) script_path opts = false) →
      lookupDir st.used_by_dir d = some u →
      u.Nodup →
      st.renamed_files.map Prod.snd = u.reverse.map (joinPath d) →
      (st.renamed_files.map Prod.fst).Nodup →
      (∀ key ∈ st.renamed_files.map Prod.fst, ∀ f ∈ files, key ≠ joinPath d f) →
      st.renamed_files.length = u.length →
      List.foldlM (processFile opts fs gen script_path fuel d) st files = some st' →
      ∃ u', lookupDir st'.used_by_dir d = some u' ∧ u'.Nodup ∧
        st'.renamed_files.map Prod.snd = u'.reverse.map (joinPath d) ∧
        (st'.renamed_files.map Prod.fst).Nodup ∧
        st'.renamed_files.length = u'.length ∧
        st'.renamed_files.length = st.renamed_files.length + files.length
  | [], st, st', u, _, _, hlk, hu, hsnd, hfst, _, hlen, h => by
      rw [List.foldlM_nil] at h
      cases h
      exact ⟨u, hlk, hu, hsnd, hfst, hlen, by simp⟩
  | f :: fs', st, st', u, hnodup, hnx, hlk, hu, hsnd, hfst, hkeys, hlen, h => by
      obtain ⟨st₁, hf, hrest⟩ := foldlM_cons_some _ f fs' st st' h
      unfold processFile at hf
      rw [if_neg (by
        rw [hnx f (List.mem_cons_self f fs')]
        exact Bool.false_ne_true)] at hf
      split at hf
      · exact Option.noConfusion hf
      · rename_i nm k' hpick
        cases hf
        have hgetu : (lookupDir st.used_by_dir d).getD [] = u := by rw [hlk]; rfl
        rw [hgetu] at hpick hrest
        have hnmfresh : nm ∉ u := (pickFresh_spec gen _ u fuel st.genCalls nm k' hpick).1
        have hsucc := hok (joinPath d f) (joinPath d nm)
        have hst₁u : lookupDir (processRename opts fs d f nm
            { st with total := st.total + 1, genCalls := k',
                      used_by_dir := updateDir st.used_by_dir d (nm :: u) }).used_by_dir d
            = some (nm :: u) := by
          rw [processRename_used_by_dir]
          exact lookupDir_updateDir_self st.used_by_dir d (nm :: u) u hlk
        have hst₁rf : (processRename opts fs d f nm
            { st with total := st.total + 1, genCalls := k',
                      used_by_dir := updateDir st.used_by_dir d (nm :: u) }).renamed_files
            = st.renamed_files ++ [(joinPath d f, joinPath d nm)] :=
          processRename_real_ok opts fs d f nm _ hdry hsucc
        have hnodup' := (List.nodup_cons.mp hnodup).2
        have hfnotin := (List.nodup_cons.mp hnodup).1
        obtain ⟨u', hlk', hu', hsnd', hfst', hlen', hlenN⟩ :=
          claim1_aux opts fs gen script_path fuel d hdry hok fs' _ st' (nm :: u)
            hnodup'
            (fun g hg => hnx g (List.mem_cons_of_mem f hg))
            hst₁u
            (List.nodup_cons.mpr ⟨hnmfresh, hu⟩)
            (by
              rw [hst₁rf]
              simp [hsnd])
            (by
              rw [hst₁rf, List.map_append]
              rw [List.nodup_append]
              refine ⟨hfst, List.nodup_singleton _, ?_⟩
              intro a ha hb
              simp only [List.map_cons, List.map_nil, List.mem_singleton] at hb
              exact hkeys a ha f (List.mem_cons_self f fs') hb)
            (by
              intro key hkey g hg
              rw [hst₁rf, List.map_append] at hkey
              rcases List.mem_append.mp hkey with hold | hnew
              · exact hkeys key hold g (List.mem_cons_of_mem f hg)
              · simp only [List.map_cons, List.map_nil, List.mem_singleton] at hnew
                subst hnew
                intro heq
                exact hfnotin (joinPath_inj d heq ▸ hg)
            )
            (by
              rw [hst₁rf]
              simp [hlen])
            hrest
        refine ⟨u', hlk', hu', hsnd', hfst', hlen', ?_⟩
        rw [hlenN, hst₁rf]
        simp
        omega

/-- C1: a non-dry run over N distinct files in a single directory, with no
exclusions and every rename succeeding, produces a mapping with exactly N
entries whose keys are pairwise distinct and whose values are pairwise
distinct, and the directory's used-name set never contains a duplicate. -/
theorem claim1_unique_names (opts : Options) (fs : FsOracle) (gen : ℕ → Str)
    (script_path : Str) (fuel : ℕ) (d : Str) (files : List Str) (res : RunResult)
    (hdry : opts.dry_run = false)
    (hok : ∀ o n, (safe_rename fs o n).success = true)
    (hnodup : files.Nodup)
    (hnx : ∀ f ∈ files, should_exclude_file (joinPath d f) script_path opts = false)
    (h : rename_files_recursively opts fs gen script_path fuel [⟨d, files⟩] = some res) :
    res.state.renamed_files.length = files.length ∧
    (res.state.renamed_files.map Prod.fst).Nodup ∧
    (res.state.renamed_files.map Prod.snd).Nodup ∧
    ∀ u, lookupDir res.state.used_by_dir d = some u → u.Nodup := by
  unfold rename_files_recursively at h
  split at h
  · exact Option.noConfusion h
  · rename_i st hst
    cases h
    obtain ⟨st₁, hd1, hnil⟩ := foldlM_cons_some _ _ _ _ _ hst
    have hst₁ : st₁ = st := by
      rw [List.foldlM_nil] at hnil
      simpa using hnil
    subst hst₁
    unfold processDir at hd1
    split at hd1
    · rename_i u' heq
      simp [lookupDir] at heq
    · obtain ⟨u', hlk', hu', hsnd', hfst', hlen', hlenN⟩ :=
        claim1_aux opts fs gen script_path fuel d hdry hok files _ st₁ []
          hnodup hnx (by simp [lookupDir]) (List.nodup_nil)
          (by rfl) (by exact List.nodup_nil) (by simp) (by rfl) hd1
      refine ⟨by simpa using hlenN, hfst', ?_, ?_⟩
      · rw [hsnd']
        exact (List.nodup_reverse.mpr hu').map (fun a b => joinPath_inj d)
      · intro u hu2
        rw [hlk'] at hu2
        cases hu2
        exact hu'

/-- Witness for C1 on a concrete two-file run: two entries, distinct keys,
distinct values, duplicate-free used-name set. -/
theorem claim1_unique_names_witness :
    ∃ res, rename_files_recursively {} fsAllOk genSeq "s.py".toList 4
        [⟨[], ["a.txt".toList, "b.txt".toList]⟩] = some res ∧
      res.state.renamed_files.length = 2 ∧
      (res.state.renamed_files.map Prod.fst).Nodup ∧
      (res.state.renamed_files.map Prod.snd).Nodup := by
  cases hres : rename_files_recursively {} fsAllOk genSeq "s.py".toList 4
      [⟨[], ["a.txt".toList, "b.txt".toList]⟩] with
  | none => exact absurd hres (by decide)
  | some res =>
      have h := claim1_unique_names {} fsAllOk genSeq "s.py".toList 4 []
        ["a.txt".toList, "b.txt".toList] res rfl (fun o n => rfl)
        (by decide) (by decide) hres
      exact ⟨res, rfl, by simpa using h.1, h.2.1, h.2.2.1⟩

end Projector
